import Mathlib

/-!
Verification of the web frontend of the nes.rs emulator.

The definitions below are shallow embeddings of the TypeScript sources:

* `RingBuffer` and its operations embed `src/web/src/ring-buffer.ts`
  (`Float32Array` samples are modelled as rationals; the JS `%` operator on
  possibly-negative numbers is `Int.tmod`, the truncated remainder).
* `RenderState`, `renderLoopStep`, `onVisibilityResume` and the constants
  `FPS` / `TIME_PER_FRAME` embed the frame-scheduling part of the render
  loop (`main.ts` and its earlier revision): accumulator and timestamps are
  rationals.
* `drawLoop` / `drawScreenPixels` embed the pixel loop of
  `src/web/src/renderer.ts` (`drawScreen`).
* `getControllerInput` embeds the keyboard sampler of `input.ts`.
-/

/-- Embeds the `RingBuffer` class state of `src/web/src/ring-buffer.ts`:
a fixed backing store (`Float32Array`, modelled as a list of rationals) and
two cursors. -/
structure RingBuffer where
  buffer : List ℚ
  readIndex : ℕ
  writeIndex : ℕ
  deriving DecidableEq, Repr

namespace RingBuffer

/-- The `constructor(size)`: a zero-filled backing store with both cursors at 0. -/
def new (size : ℕ) : RingBuffer :=
  { buffer := List.replicate size 0, readIndex := 0, writeIndex := 0 }

/-- The `length()` query: `(((writeIndex - readIndex) % size) + size) % size + 1`,
with JS `%` (truncated remainder, `Int.tmod`). -/
def length (rb : RingBuffer) : ℤ :=
  let num : ℤ := (rb.writeIndex : ℤ) - (rb.readIndex : ℤ)
  let size : ℤ := (rb.buffer.length : ℤ)
  ((num.tmod size) + size).tmod size + 1

/-- The `pop()` operation: on `length() == 0` report underrun and return 0, otherwise read
the sample under `readIndex` and advance it modulo the store size. Returns
the new state together with the popped sample. -/
def pop (rb : RingBuffer) : RingBuffer × ℚ :=
  if rb.length = 0 then (rb, 0)
  else
    let val := rb.buffer.getD rb.readIndex 0
    ({ rb with readIndex := (rb.readIndex + 1) % rb.buffer.length }, val)

/-- The `queue(samples)` operation: write samples one by one at `writeIndex`, advancing it
modulo the store size, stopping (overrun) as soon as `length()` equals the
store size. -/
def queue (rb : RingBuffer) : List ℚ → RingBuffer
  | [] => rb
  | s :: rest =>
    if rb.length = (rb.buffer.length : ℤ) then rb
    else
      queue
        { rb with
          buffer := rb.buffer.set rb.writeIndex s,
          writeIndex := (rb.writeIndex + 1) % rb.buffer.length }
        rest

/-- The number of pending (written, not yet consumed) samples implied by the
cursors: `(writeIndex - readIndex + N) mod N`, computed in ℕ. -/
def pendingCount (rb : RingBuffer) : ℕ :=
  (rb.writeIndex + rb.buffer.length - rb.readIndex) % rb.buffer.length

/-- The exact modulo-difference backlog formula of the specification,
`(writeIndex − readIndex + N) mod N`, as an integer (for comparison with
`length`). -/
def lengthSpec (rb : RingBuffer) : ℤ :=
  ((rb.writeIndex : ℤ) - (rb.readIndex : ℤ) + (rb.buffer.length : ℤ)) %
    (rb.buffer.length : ℤ)

/-- The queue contents as seen by a consumer: the `pendingCount` samples
starting at `readIndex`, in pop order. -/
def contents (rb : RingBuffer) : List ℚ :=
  (List.range rb.pendingCount).map
    (fun i => rb.buffer.getD ((rb.readIndex + i) % rb.buffer.length) 0)

/-- Cursor / store well-formedness for a buffer of size `N`. -/
def WF (N : ℕ) (rb : RingBuffer) : Prop :=
  rb.buffer.length = N ∧ rb.readIndex < N ∧ rb.writeIndex < N

/-- States reachable from a freshly constructed buffer of size `N` by any
sequence of `queue` and `pop` calls. -/
inductive Reachable (N : ℕ) : RingBuffer → Prop
  | init : Reachable N (new N)
  | queue (rb : RingBuffer) (samples : List ℚ) :
      Reachable N rb → Reachable N (rb.queue samples)
  | pop (rb : RingBuffer) : Reachable N rb → Reachable N (rb.pop).1

/-- A client operation on the ring buffer: one `queue` call or one `pop`
call. -/
inductive Op where
  | push : List ℚ → Op
  | pop : Op
  deriving DecidableEq, Repr

/-- Run a sequence of operations against a buffer, collecting every popped
sample in order. -/
def runOps (rb : RingBuffer) : List Op → RingBuffer × List ℚ
  | [] => (rb, [])
  | Op.push l :: rest => runOps (rb.queue l) rest
  | Op.pop :: rest =>
    let p := rb.pop
    let q := runOps p.1 rest
    (q.1, p.2 :: q.2)

/-- The specification-side validity of an operation sequence against an ideal
FIFO queue `q` with capacity `cap`: every push fits entirely (the pending
count never exceeds `cap`) and every pop happens on a nonempty queue. -/
def validOps (cap : ℕ) : List ℚ → List Op → Bool
  | _, [] => true
  | q, Op.push l :: rest => decide (q.length + l.length ≤ cap) && validOps cap (q ++ l) rest
  | q, Op.pop :: rest => (!q.isEmpty) && validOps cap q.tail rest

/-- All pushed samples of an operation sequence, in offer order. -/
def allPushed : List Op → List ℚ
  | [] => []
  | Op.push l :: rest => l ++ allPushed rest
  | Op.pop :: rest => allPushed rest

/-- The number of pop operations in a sequence. -/
def popCount : List Op → ℕ
  | [] => 0
  | Op.push _ :: rest => popCount rest
  | Op.pop :: rest => popCount rest + 1

end RingBuffer

/-! ## Frame scheduler (`main.ts` render loop) -/

/-- The emulation frame rate of `main.ts`: `const FPS = 60.0988`. -/
def FPS : ℚ := 600988 / 10000

/-- The frame interval `const TIME_PER_FRAME = 1000 / FPS`. -/
def TIME_PER_FRAME : ℚ := 1000 / FPS

/-- The mutable scheduler state of the render loop: `let acc = 0` and
`let prev = 0` (accumulated un-simulated time and the previous callback
timestamp). -/
structure RenderState where
  acc : ℚ
  prev : ℚ
  deriving DecidableEq, Repr

/-- The `while (acc >= TIME_PER_FRAME) { ...; acc -= TIME_PER_FRAME }` loop
of the render loop, restricted to its effect on `acc`. -/
def drainAcc (a : ℚ) : ℚ :=
  if TIME_PER_FRAME ≤ a then drainAcc (a - TIME_PER_FRAME) else a
termination_by (⌊a / TIME_PER_FRAME⌋).toNat
decreasing_by
  have hT : (0 : ℚ) < TIME_PER_FRAME := by norm_num [TIME_PER_FRAME, FPS]
  have h1 : (1 : ℚ) ≤ a / TIME_PER_FRAME := by
    rw [le_div_iff₀ hT]
    linarith
  have h2 : ⌊(a - TIME_PER_FRAME) / TIME_PER_FRAME⌋ = ⌊a / TIME_PER_FRAME⌋ - 1 := by
    rw [sub_div, div_self (ne_of_gt hT)]
    exact_mod_cast Int.floor_sub_int (a / TIME_PER_FRAME) 1
  have h3 : (1 : ℤ) ≤ ⌊a / TIME_PER_FRAME⌋ := Int.le_floor.mpr (by exact_mod_cast h1)
  omega

/-- One `renderLoop(timestamp)` callback, restricted to its effect on the
scheduler state: `acc += timestamp - prev`, the drain loop, then
`prev = timestamp`. -/
def renderLoopStep (s : RenderState) (timestamp : ℚ) : RenderState :=
  { acc := drainAcc (s.acc + (timestamp - s.prev)), prev := timestamp }

/-- The `visibilitychange` handler branch for a tab becoming visible again:
`context.resume(); prev = performance.now()` — only `prev` is written. -/
def onVisibilityResume (s : RenderState) (now : ℚ) : RenderState :=
  { s with prev := now }

/-! ## Pixel compositor (`renderer.ts`, `drawScreen`) -/

def SCREEN_WIDTH : ℕ := 256

def SCREEN_HEIGHT : ℕ := 240

/-- A single byte store into the `ImageData` pixel array. -/
def writeByte (px : ℕ → ℕ) (idx v : ℕ) : ℕ → ℕ :=
  fun j => if j = idx then v else px j

/-- One iteration of the `drawScreen` loop body at pixel index `i`:
`pixels[4i..4i+2] := buf[3i..3i+2]; pixels[4i+3] := 255`. -/
def drawPixel (buf : ℕ → ℕ) (i : ℕ) (px : ℕ → ℕ) : ℕ → ℕ :=
  writeByte
    (writeByte
      (writeByte
        (writeByte px (i * 4) (buf (i * 3)))
        (i * 4 + 1) (buf (i * 3 + 1)))
      (i * 4 + 2) (buf (i * 3 + 2)))
    (i * 4 + 3) 255

/-- The `for (let i = 0; i < n; i += 1)` loop of `drawScreen`, iterating
`drawPixel` for `i = 0 .. n-1` in ascending order. -/
def drawLoop (buf : ℕ → ℕ) : ℕ → (ℕ → ℕ) → (ℕ → ℕ)
  | 0, px => px
  | n + 1, px => drawPixel buf n (drawLoop buf n px)

/-- The pixel buffer produced by `drawScreen` from a raw RGB frame `buf`:
a fresh zero-initialised `ImageData` written by the loop over all
`SCREEN_HEIGHT * SCREEN_WIDTH` pixels. -/
def drawScreenPixels (buf : ℕ → ℕ) : ℕ → ℕ :=
  drawLoop buf (SCREEN_HEIGHT * SCREEN_WIDTH) (fun _ => 0)

/-! ## Controller input sampler (`input.ts`, `getControllerInput`) -/

/-- The bit-building chain of `getControllerInput` over the eight sampled
key states (A = KeyX, B = KeyZ, Select = KeyA, Start = KeyS, then the four
arrows). -/
def inputByte (a b sel start up down left right : Bool) : ℕ :=
  let byte : ℕ := 0
  let byte := if a then byte ||| (1 <<< 0) else byte
  let byte := if b then byte ||| (1 <<< 1) else byte
  let byte := if sel then byte ||| (1 <<< 2) else byte
  let byte := if start then byte ||| (1 <<< 3) else byte
  let byte := if up then byte ||| (1 <<< 4) else byte
  let byte := if down then byte ||| (1 <<< 5) else byte
  let byte := if left then byte ||| (1 <<< 6) else byte
  let byte := if right then byte ||| (1 <<< 7) else byte
  byte

/-- The sampler `getControllerInput()` reading the `keyDown` record (modelled as a map
from key codes to booleans). -/
def getControllerInput (keyDown : String → Bool) : ℕ :=
  inputByte (keyDown ("KeyX")) (keyDown ("KeyZ")) (keyDown ("KeyA"))
    (keyDown ("KeyS")) (keyDown ("ArrowUp")) (keyDown ("ArrowDown"))
    (keyDown ("ArrowLeft")) (keyDown ("ArrowRight"))

/-- The key code carrying each bit of the controller byte, per the fixed
layout (bit 0 = A, 1 = B, 2 = Select, 3 = Start, 4 = Up, 5 = Down,
6 = Left, 7 = Right). -/
def buttonKey : Fin 8 → String
  | 0 => "KeyX"
  | 1 => "KeyZ"
  | 2 => "KeyA"
  | 3 => "KeyS"
  | 4 => "ArrowUp"
  | 5 => "ArrowDown"
  | 6 => "ArrowLeft"
  | 7 => "ArrowRight"

namespace RingBuffer

/-- A truncated remainder (JS `%`) whose dividend is smaller than the divisor
in magnitude is the dividend itself. -/
theorem tmod_eq_self {a b : ℤ} (h1 : -b < a) (h2 : a < b) : a.tmod b = a := by
  have key : a.tmod b = a - b * a.tdiv b := by
    have := Int.tmod_add_tdiv a b
    linarith
  have hz : a.tdiv b = 0 := by
    rcases le_or_lt 0 a with ha | ha
    · exact Int.tdiv_eq_zero_of_lt ha h2
    · have h4 : (-a).tdiv b = 0 := Int.tdiv_eq_zero_of_lt (by omega) (by omega)
      have h5 := Int.neg_tdiv a b
      omega
  rw [key, hz]
  ring

/-- Reduction of `x % N` for `x < 2 * N`, turning cursor arithmetic into
linear arithmetic. -/
theorem nmod_two {x N : ℕ} (h : x < 2 * N) : x % N = if x < N then x else x - N := by
  split
  · exact Nat.mod_eq_of_lt (by assumption)
  · rw [Nat.mod_eq_sub_mod (by omega)]
    exact Nat.mod_eq_of_lt (by omega)

/-- Reading any position of a list after a single in-range write. -/
theorem getD_set_ite (l : List ℚ) (i j : ℕ) (v : ℚ) (hi : i < l.length) :
    (l.set i v).getD j 0 = if j = i then v else l.getD j 0 := by
  rcases eq_or_ne j i with h | h
  · subst h
    simp [List.getD_eq_getElem?_getD, List.getElem?_set, hi]
  · simp [List.getD_eq_getElem?_getD, List.getElem?_set, h, Ne.symm h]

theorem pendingCount_eq {N : ℕ} {rb : RingBuffer} (h : WF N rb) :
    rb.pendingCount =
      if rb.readIndex ≤ rb.writeIndex then rb.writeIndex - rb.readIndex
      else rb.writeIndex + N - rb.readIndex := by
  obtain ⟨hlen, hr, hw⟩ := h
  unfold pendingCount
  rw [hlen, nmod_two (by omega)]
  split_ifs <;> omega

theorem pendingCount_lt {N : ℕ} {rb : RingBuffer} (h : WF N rb) :
    rb.pendingCount < N := by
  have := pendingCount_eq h
  obtain ⟨hlen, hr, hw⟩ := h
  rw [this]
  split_ifs <;> omega

/-- On a well-formed state the `length()` of the code is the pending count plus
one. -/
theorem length_eq_pending {N : ℕ} {rb : RingBuffer} (h : WF N rb) :
    rb.length = (rb.pendingCount : ℤ) + 1 := by
  have hpc := pendingCount_eq h
  obtain ⟨hlen, hr, hw⟩ := h
  simp only [length, hlen]
  rcases le_or_lt rb.readIndex rb.writeIndex with hc | hc
  · have e1 : ((rb.writeIndex : ℤ) - rb.readIndex).tmod N =
        (rb.writeIndex : ℤ) - rb.readIndex :=
      tmod_eq_self (by omega) (by omega)
    have e2 : (((rb.writeIndex : ℤ) - rb.readIndex) + N).tmod N =
        (rb.writeIndex : ℤ) - rb.readIndex := by
      rw [Int.tmod_eq_emod (by omega) (by omega)]
      have h3 : ((rb.writeIndex : ℤ) - rb.readIndex) + (N : ℤ) =
          ((rb.writeIndex : ℤ) - rb.readIndex) + (N : ℤ) * 1 := by ring
      rw [h3, Int.add_mul_emod_self_left]
      exact Int.emod_eq_of_lt (by omega) (by omega)
    rw [e1, e2, hpc]
    split_ifs <;> omega
  · have e1 : ((rb.writeIndex : ℤ) - rb.readIndex).tmod N =
        (rb.writeIndex : ℤ) - rb.readIndex :=
      tmod_eq_self (by omega) (by omega)
    have e2 : (((rb.writeIndex : ℤ) - rb.readIndex) + N).tmod N =
        ((rb.writeIndex : ℤ) - rb.readIndex) + N :=
      tmod_eq_self (by omega) (by omega)
    rw [e1, e2, hpc]
    split_ifs <;> omega

/-- The write cursor sits `pendingCount` slots past the read cursor. -/
theorem writeIndex_eq {N : ℕ} {rb : RingBuffer} (h : WF N rb) :
    rb.writeIndex = (rb.readIndex + rb.pendingCount) % N := by
  have hpc := pendingCount_eq h
  obtain ⟨hlen, hr, hw⟩ := h
  rw [hpc]
  split_ifs with hc
  · rw [nmod_two (by omega)]
    split_ifs <;> omega
  · rw [nmod_two (by omega)]
    split_ifs <;> omega

theorem contents_length (rb : RingBuffer) :
    rb.contents.length = rb.pendingCount := by
  simp [contents]

theorem wf_new (N : ℕ) (hN : 0 < N) : WF N (new N) := by
  refine ⟨?_, hN, hN⟩
  simp [new]

theorem wf_pop {N : ℕ} {rb : RingBuffer} (h : WF N rb) : WF N (rb.pop).1 := by
  obtain ⟨hlen, hr, hw⟩ := h
  have hN : 0 < N := by omega
  unfold pop
  split
  · exact ⟨hlen, hr, hw⟩
  · exact ⟨hlen, by simp only [hlen]; exact Nat.mod_lt _ hN, hw⟩

theorem wf_queue {N : ℕ} (l : List ℚ) :
    ∀ {rb : RingBuffer}, WF N rb → WF N (rb.queue l) := by
  induction l with
  | nil => intro rb h; simpa [queue] using h
  | cons s rest ih =>
    intro rb h
    obtain ⟨hlen, hr, hw⟩ := h
    have hN : 0 < N := by omega
    simp only [queue]
    split
    · exact ⟨hlen, hr, hw⟩
    · refine ih ⟨by simp [hlen], hr, ?_⟩
      simp only [List.length_set, hlen]
      exact Nat.mod_lt _ hN

theorem wf_reachable {N : ℕ} (hN : 0 < N) {rb : RingBuffer}
    (h : Reachable N rb) : WF N rb := by
  induction h with
  | init => exact wf_new N hN
  | queue rb samples _ ih => exact wf_queue samples ih
  | pop rb _ ih => exact wf_pop ih

theorem write_wf {N : ℕ} {rb : RingBuffer} (h : WF N rb) (s : ℚ) :
    WF N { rb with buffer := rb.buffer.set rb.writeIndex s, writeIndex := (rb.writeIndex + 1) % rb.buffer.length } := by
  obtain ⟨hlen, hr, hw⟩ := h
  have hN : 0 < N := by omega
  refine ⟨by simp [hlen], hr, ?_⟩
  simp only [List.length_set, hlen]
  exact Nat.mod_lt _ hN

theorem write_pendingCount {N : ℕ} {rb : RingBuffer} (h : WF N rb)
    (hp1 : rb.pendingCount + 1 < N) (s : ℚ) :
    pendingCount { rb with buffer := rb.buffer.set rb.writeIndex s, writeIndex := (rb.writeIndex + 1) % rb.buffer.length } =
      rb.pendingCount + 1 := by
  have hpceq := pendingCount_eq h
  rw [hpceq] at hp1 ⊢
  obtain ⟨hlen, hr, hw⟩ := h
  simp only [pendingCount, List.length_set, hlen]
  rw [nmod_two (x := rb.writeIndex + 1) (by omega)]
  split_ifs at hp1 ⊢ <;>
    · rw [nmod_two (by omega)]
      split_ifs <;> omega

theorem write_contents {N : ℕ} {rb : RingBuffer} (h : WF N rb)
    (hp1 : rb.pendingCount + 1 < N) (s : ℚ) :
    contents { rb with buffer := rb.buffer.set rb.writeIndex s, writeIndex := (rb.writeIndex + 1) % rb.buffer.length } =
      contents rb ++ [s] := by
  have hweq := writeIndex_eq h
  have hp := pendingCount_lt h
  have hpc' := write_pendingCount h hp1 s
  obtain ⟨hlen, hr, hw⟩ := h
  simp only [contents]
  rw [hpc']
  simp only [List.length_set, hlen, List.range_succ,
    List.map_append, List.map_cons, List.map_nil]
  congr 1
  · apply List.map_congr_left
    intro i hi
    simp only [List.mem_range] at hi
    have hne : (rb.readIndex + i) % N ≠ rb.writeIndex := by
      rw [hweq]
      rw [nmod_two (x := rb.readIndex + i) (by omega),
        nmod_two (x := rb.readIndex + rb.pendingCount) (by omega)]
      split_ifs <;> omega
    rw [getD_set_ite _ _ _ _ (by omega), if_neg hne]
  · rw [← hweq]
    rw [getD_set_ite _ _ _ _ (by omega), if_pos rfl]

theorem read_pendingCount {N : ℕ} {rb : RingBuffer} (h : WF N rb)
    (hp : rb.pendingCount ≠ 0) :
    pendingCount { rb with readIndex := (rb.readIndex + 1) % rb.buffer.length } =
      rb.pendingCount - 1 := by
  have hpceq := pendingCount_eq h
  rw [hpceq] at hp ⊢
  obtain ⟨hlen, hr, hw⟩ := h
  simp only [pendingCount, hlen]
  rw [nmod_two (x := rb.readIndex + 1) (by omega)]
  split_ifs at hp ⊢ <;>
    · rw [nmod_two (by omega)]
      split_ifs <;> omega

/-- On a well-formed, nonempty state, `pop` takes the read branch: it
returns the head of the contents and leaves the tail. -/
theorem pop_spec {N : ℕ} {rb : RingBuffer} (h : WF N rb)
    (hp : rb.pendingCount ≠ 0) :
    (rb.pop).2 = rb.contents.headI ∧
      contents (rb.pop).1 = rb.contents.tail := by
  have hlen1 : ¬ rb.length = 0 := by
    rw [length_eq_pending h]
    omega
  have hpc' := read_pendingCount h hp
  obtain ⟨k, hk⟩ : ∃ k, rb.pendingCount = k + 1 := ⟨rb.pendingCount - 1, by omega⟩
  obtain ⟨hlen, hr, hw⟩ := h
  have hhead : rb.contents.headI = rb.buffer.getD rb.readIndex 0 := by
    simp only [contents, hk, List.range_succ_eq_map, List.map_cons, List.headI_cons]
    rw [Nat.add_zero]
    congr 1
    exact Nat.mod_eq_of_lt (by omega)
  have htail : rb.contents.tail =
      (List.range k).map
        (fun i => rb.buffer.getD ((rb.readIndex + (i + 1)) % rb.buffer.length) 0) := by
    simp only [contents, hk, List.range_succ_eq_map, List.map_cons, List.tail_cons,
      List.map_map]
    apply List.map_congr_left
    intro i _
    simp [Function.comp, Nat.succ_eq_add_one]
  simp only [pop, if_neg hlen1]
  constructor
  · rw [hhead]
  · rw [htail]
    simp only [contents, hpc', hk, Nat.add_sub_cancel]
    apply List.map_congr_left
    intro i _
    have harg : ((rb.readIndex + 1) % rb.buffer.length + i) % rb.buffer.length =
        (rb.readIndex + (i + 1)) % rb.buffer.length := by
      rw [Nat.mod_add_mod]
      congr 1
      omega
    rw [harg]

/-- Queueing with enough headroom appends the offered samples to the pending
contents and preserves well-formedness. -/
theorem queue_spec {N : ℕ} (l : List ℚ) :
    ∀ {rb : RingBuffer}, WF N rb → rb.pendingCount + l.length ≤ N - 1 →
      WF N (rb.queue l) ∧ contents (rb.queue l) = contents rb ++ l := by
  induction l with
  | nil =>
    intro rb h _
    simp only [queue, List.append_nil]
    exact ⟨h, trivial⟩
  | cons s rest ih =>
    intro rb h hroom
    simp only [List.length_cons] at hroom
    have hN : 0 < N := by have := h.2.1; omega
    have hp1 : rb.pendingCount + 1 < N := by omega
    have hcond : ¬ rb.length = (rb.buffer.length : ℤ) := by
      rw [length_eq_pending h, h.1]
      omega
    simp only [queue]
    rw [if_neg hcond]
    have hwf' := write_wf h s
    have hpc' := write_pendingCount h hp1 s
    have hcont' := write_contents h hp1 s
    have hres := ih hwf' (by rw [hpc']; omega)
    refine ⟨hres.1, ?_⟩
    rw [hres.2, hcont']
    simp

theorem contents_new (N : ℕ) : contents (new N) = [] := by
  simp [contents, pendingCount, new, Nat.mod_self]

/-- Refinement: as long as the specification-side FIFO stays within `N - 1`
pending samples and never pops empty, the concrete buffer pops exactly the
pushed samples in order. -/
theorem runOps_fifo {N : ℕ} (ops : List Op) :
    ∀ rb : RingBuffer, WF N rb → validOps (N - 1) rb.contents ops = true →
      (runOps rb ops).2 = (rb.contents ++ allPushed ops).take (popCount ops) := by
  induction ops with
  | nil =>
    intro rb _ _
    simp [runOps, allPushed, popCount]
  | cons op rest ih =>
    cases op with
    | push l =>
      intro rb hwf hv
      rw [validOps, Bool.and_eq_true, decide_eq_true_eq] at hv
      obtain ⟨hfit, hv⟩ := hv
      rw [contents_length] at hfit
      have hq := queue_spec l hwf hfit
      have hv2 : validOps (N - 1) (contents (rb.queue l)) rest = true := by
        rw [hq.2]; exact hv
      simp only [runOps, allPushed, popCount]
      rw [ih _ hq.1 hv2, hq.2, List.append_assoc]
    | pop =>
      intro rb hwf hv
      rw [validOps, Bool.and_eq_true] at hv
      obtain ⟨hne, hv⟩ := hv
      have hne' : rb.contents ≠ [] := by
        intro hnil
        rw [hnil] at hne
        simp at hne
      have hp : rb.pendingCount ≠ 0 := by
        rw [← contents_length rb]
        intro h0
        exact hne' (List.eq_nil_of_length_eq_zero h0)
      have hps := pop_spec hwf hp
      have hwf' := wf_pop hwf
      have hv2 : validOps (N - 1) (contents (rb.pop).1) rest = true := by
        rw [hps.2]; exact hv
      obtain ⟨a, t, hat⟩ := List.exists_cons_of_ne_nil hne'
      simp only [runOps, popCount, allPushed]
      rw [ih _ hwf' hv2, hps.1, hps.2, hat]
      simp [List.take_succ_cons]

end RingBuffer

/-- C5 counterexample: the claim as stated (FIFO for every sequence whose
pending count never exceeds the constructed capacity) fails at capacity 1:
the sequence push `[5]`, pop keeps the pending count at most 1 = capacity,
yet the buffer drops the push as an overrun and the pop returns 0, not 5. -/
theorem c5_fifo_counterexample :
    RingBuffer.validOps 1 [] [RingBuffer.Op.push [5], RingBuffer.Op.pop] = true ∧
      (RingBuffer.runOps (RingBuffer.new 1)
          [RingBuffer.Op.push [5], RingBuffer.Op.pop]).2 ≠
        (RingBuffer.allPushed [RingBuffer.Op.push [5], RingBuffer.Op.pop]).take
          (RingBuffer.popCount [RingBuffer.Op.push [5], RingBuffer.Op.pop]) := by
  decide

/-- C5 (amended): for every sequence of push/pop operations in which the
pending count never exceeds capacity − 1 (and no pop hits an empty queue),
the sequence of popped values equals the sequence of pushed values in the
original order — no loss, duplication or reordering. -/
theorem c5_fifo_amended (N : ℕ) (hN : 1 ≤ N) (ops : List RingBuffer.Op)
    (h : RingBuffer.validOps (N - 1) [] ops = true) :
    (RingBuffer.runOps (RingBuffer.new N) ops).2 =
      (RingBuffer.allPushed ops).take (RingBuffer.popCount ops) := by
  have hwf := RingBuffer.wf_new N hN
  have hcont := RingBuffer.contents_new N
  have hres := RingBuffer.runOps_fifo ops (RingBuffer.new N) hwf (by rw [hcont]; exact h)
  rw [hres, hcont, List.nil_append]

/-- C5 witness: the amended FIFO theorem applied to a concrete run — a
capacity-2 buffer, push `[3]` then pop. -/
theorem c5_fifo_amended_witness :
    (RingBuffer.runOps (RingBuffer.new 2)
        [RingBuffer.Op.push [3], RingBuffer.Op.pop]).2 =
      (RingBuffer.allPushed [RingBuffer.Op.push [3], RingBuffer.Op.pop]).take
        (RingBuffer.popCount [RingBuffer.Op.push [3], RingBuffer.Op.pop]) :=
  c5_fifo_amended 2 (by norm_num) [RingBuffer.Op.push [3], RingBuffer.Op.pop]
    (by decide)

/-- C10: for every reachable state of a buffer constructed with size
`N ≥ 1`, `length()` lies in `[1, N]` and never returns 0, so the underrun
branch of `pop()` is unreachable; `length() == N` holds exactly when
`N − 1` samples are pending, the pending count never exceeds `N − 1`
(effective capacity one less than constructed), and any push arriving with
`N − 1` samples pending is dropped unchanged. -/
theorem c10_effective_capacity (N : ℕ) (hN : 1 ≤ N) (rb : RingBuffer)
    (h : RingBuffer.Reachable N rb) (s : ℚ) :
    rb.length ≠ 0 ∧ 1 ≤ rb.length ∧ rb.length ≤ (N : ℤ) ∧
      (rb.length = (N : ℤ) ↔ rb.pendingCount = N - 1) ∧
      rb.pendingCount ≤ N - 1 ∧
      (rb.pendingCount = N - 1 → rb.queue [s] = rb) := by
  have hwf := RingBuffer.wf_reachable hN h
  have hlen := RingBuffer.length_eq_pending hwf
  have hlt := RingBuffer.pendingCount_lt hwf
  refine ⟨by rw [hlen]; omega, by rw [hlen]; omega, by rw [hlen]; omega,
    by rw [hlen]; omega, by omega, ?_⟩
  intro hfull
  have hcond : rb.length = (rb.buffer.length : ℤ) := by
    rw [hlen, hwf.1]
    omega
  simp only [RingBuffer.queue, if_pos hcond]

/-- C10 witness: the theorem instantiated at a freshly constructed buffer of
size 4. -/
theorem c10_effective_capacity_witness :
    (RingBuffer.new 4).length ≠ 0 ∧ 1 ≤ (RingBuffer.new 4).length ∧
      (RingBuffer.new 4).length ≤ (4 : ℤ) ∧
      ((RingBuffer.new 4).length = (4 : ℤ) ↔
        (RingBuffer.new 4).pendingCount = 4 - 1) ∧
      (RingBuffer.new 4).pendingCount ≤ 4 - 1 ∧
      ((RingBuffer.new 4).pendingCount = 4 - 1 →
        (RingBuffer.new 4).queue [7] = RingBuffer.new 4) :=
  c10_effective_capacity 4 (by norm_num) (RingBuffer.new 4)
    RingBuffer.Reachable.init 7

/-- C1: the claim that `pop` never returns stale data and returns 0 on an
empty buffer fails on the code: on a capacity-2 buffer, queue 5, pop it,
queue 7, pop it — the buffer is now empty (`writeIndex == readIndex`), yet a
further `pop()` returns the stale sample 5, not 0, because `length()` is
never 0 and the underrun branch is dead. -/
theorem c1_pop_returns_stale_on_empty :
    (((RingBuffer.new 2).queue [5]).pop).2 = 5 ∧
      (((((RingBuffer.new 2).queue [5]).pop).1.queue [7]).pop).2 = 7 ∧
      (((((RingBuffer.new 2).queue [5]).pop).1.queue [7]).pop).1.writeIndex =
        (((((RingBuffer.new 2).queue [5]).pop).1.queue [7]).pop).1.readIndex ∧
      ((((((RingBuffer.new 2).queue [5]).pop).1.queue [7]).pop).1.pop).2 = 5 ∧
      ((((((RingBuffer.new 2).queue [5]).pop).1.queue [7]).pop).1.pop).2 ≠ 0 := by
  decide

/-- C2: `length()` on the code is the modulo difference plus one, not the
exact modulo-difference formula of the claim: on a fresh capacity-4 buffer
the formula gives 0 but `length()` returns 1. -/
theorem c2_length_off_by_one :
    (RingBuffer.new 4).length = 1 ∧ (RingBuffer.new 4).lengthSpec = 0 ∧
      (RingBuffer.new 4).length ≠ (RingBuffer.new 4).lengthSpec := by
  decide

/-- C3: pushing more samples than the free headroom `h = capacity − pending`
does not write the first `h` of them: on an empty capacity-2 buffer
(`h = 2`), queueing `[1,2,3]` writes only sample 1 and drops 2 and 3 — the
resulting state is the one obtained by queueing `[1]` alone and its contents
are `[1]`, not `[1,2]`. -/
theorem c3_overrun_drops_one_early :
    (RingBuffer.new 2).queue [1, 2, 3] = (RingBuffer.new 2).queue [1] ∧
      ((RingBuffer.new 2).queue [1, 2, 3]).contents = [1] ∧
      ((RingBuffer.new 2).queue [1, 2, 3]).contents ≠ [1, 2] := by
  decide

/-- C4: in the capacity-4 scenario, pushing `[1,2,3]` and popping twice does
return `[1,2]` as claimed, but the subsequent push of `[4,5,6]` reports an
overrun and drops 6: the final contents are `[3,4,5]` with 3 pending, not
`[3,4,5,6]` with 4 pending as the claim states. -/
theorem c4_capacity4_scenario :
    ((RingBuffer.new 4).queue [1, 2, 3]).contents = [1, 2, 3] ∧
      (((RingBuffer.new 4).queue [1, 2, 3]).pop).2 = 1 ∧
      ((((RingBuffer.new 4).queue [1, 2, 3]).pop).1.pop).2 = 2 ∧
      ((((RingBuffer.new 4).queue [1, 2, 3]).pop).1.pop).1.contents = [3] ∧
      (((((RingBuffer.new 4).queue [1, 2, 3]).pop).1.pop).1.queue [4, 5, 6]).contents = [3, 4, 5] ∧
      (((((RingBuffer.new 4).queue [1, 2, 3]).pop).1.pop).1.queue [4, 5, 6]).pendingCount = 3 ∧
      (((((RingBuffer.new 4).queue [1, 2, 3]).pop).1.pop).1.queue [4, 5, 6]).contents ≠ [3, 4, 5, 6] := by
  decide

/-- The drain loop always terminates below one frame interval. -/
theorem drainAcc_lt (a : ℚ) : drainAcc a < TIME_PER_FRAME := by
  induction a using drainAcc.induct
  case _ x hx ih =>
    rw [drainAcc, if_pos hx]
    exact ih
  case _ x hx =>
    rw [drainAcc, if_neg hx]
    exact lt_of_not_le hx

/-- C7: after any render-loop callback with a non-negative elapsed time
since the previous timestamp, the accumulator is strictly below
`TIME_PER_FRAME`. -/
theorem c7_acc_lt_frame_interval (s : RenderState) (t : ℚ)
    (h : 0 ≤ t - s.prev) : (renderLoopStep s t).acc < TIME_PER_FRAME := by
  simp only [renderLoopStep]
  exact drainAcc_lt _

/-- C7 witness: a concrete callback at timestamp 20 from the initial state. -/
theorem c7_acc_lt_frame_interval_witness :
    (0 : ℚ) ≤ 20 - (RenderState.mk 0 0).prev ∧
      (renderLoopStep (RenderState.mk 0 0) 20).acc < TIME_PER_FRAME :=
  ⟨by norm_num, c7_acc_lt_frame_interval (RenderState.mk 0 0) 20 (by norm_num)⟩

/-- C6 counterexample: a tick at timestamp 5 from the initial state leaves
the residual 5 in the accumulator; suspending and then resuming at
timestamp 1000 leaves `acc = 5` — not 0 as the claim states — while `prev`
is indeed reset to the resume timestamp. -/
theorem c6_resume_keeps_residual :
    (onVisibilityResume (renderLoopStep (RenderState.mk 0 0) 5) 1000).acc = 5 ∧
      (onVisibilityResume (renderLoopStep (RenderState.mk 0 0) 5) 1000).acc ≠ 0 ∧
      (onVisibilityResume (renderLoopStep (RenderState.mk 0 0) 5) 1000).prev = 1000 := by
  have hT : ¬ TIME_PER_FRAME ≤ (0 : ℚ) + (5 - 0) := by
    norm_num [TIME_PER_FRAME, FPS]
  have h5 : drainAcc ((0 : ℚ) + (5 - 0)) = (0 : ℚ) + (5 - 0) := by
    rw [drainAcc, if_neg hT]
  refine ⟨?_, ?_, rfl⟩ <;>
    · simp only [onVisibilityResume, renderLoopStep, h5]
      norm_num

/-- C6 (amended): `resume` resets `previousTimestamp` to the resume
timestamp and leaves `accumulatedTime` unchanged at its pre-suspension
residual; the suspension backlog is still dropped, because the next
callback accumulates only the time elapsed since the resume timestamp. -/
theorem c6_resume_amended (s : RenderState) (t u : ℚ) :
    (onVisibilityResume s t).prev = t ∧
      (onVisibilityResume s t).acc = s.acc ∧
      (renderLoopStep (onVisibilityResume s t) u).acc =
        drainAcc (s.acc + (u - t)) :=
  ⟨rfl, rfl, rfl⟩

/-- Every pixel strictly below the loop bound receives exactly its three
RGB source bytes and an opaque alpha, and later iterations do not disturb
it. -/
theorem drawLoop_spec (buf : ℕ → ℕ) (px : ℕ → ℕ) :
    ∀ (n i : ℕ), i < n →
      drawLoop buf n px (i * 4) = buf (i * 3) ∧
        drawLoop buf n px (i * 4 + 1) = buf (i * 3 + 1) ∧
        drawLoop buf n px (i * 4 + 2) = buf (i * 3 + 2) ∧
        drawLoop buf n px (i * 4 + 3) = 255 := by
  intro n
  induction n with
  | zero => intro i hi; exact absurd hi (Nat.not_lt_zero i)
  | succ n ih =>
    intro i hi
    rcases Nat.lt_succ_iff_lt_or_eq.mp hi with hlt | heq
    · obtain ⟨h0, h1, h2, h3⟩ := ih i hlt
      simp only [drawLoop, drawPixel, writeByte]
      refine ⟨?_, ?_, ?_, ?_⟩ <;>
        · rw [if_neg (by omega), if_neg (by omega), if_neg (by omega),
            if_neg (by omega)]
          assumption
    · subst heq
      simp only [drawLoop, drawPixel, writeByte]
      refine ⟨?_, ?_, ?_, ?_⟩
      · rw [if_neg (by omega), if_neg (by omega), if_neg (by omega)]
        simp
      · rw [if_neg (by omega), if_neg (by omega)]
        simp
      · rw [if_neg (by omega)]
        simp
      · simp

/-- C8: for every raw frame and every pixel index `i` below
`SCREEN_WIDTH * SCREEN_HEIGHT`, the compositor writes display bytes
`4i .. 4i+3` as its R, G, B source bytes (`3i .. 3i+2`) and an
alpha of 255. -/
theorem c8_draw_screen_pixel (buf : ℕ → ℕ) (i : ℕ)
    (h : i < SCREEN_WIDTH * SCREEN_HEIGHT) :
    drawScreenPixels buf (i * 4) = buf (i * 3) ∧
      drawScreenPixels buf (i * 4 + 1) = buf (i * 3 + 1) ∧
      drawScreenPixels buf (i * 4 + 2) = buf (i * 3 + 2) ∧
      drawScreenPixels buf (i * 4 + 3) = 255 :=
  drawLoop_spec buf (fun _ => 0) (SCREEN_HEIGHT * SCREEN_WIDTH) i
    (by simp only [SCREEN_WIDTH, SCREEN_HEIGHT] at h ⊢; omega)

/-- C8 witness: the first pixel of a concrete frame. -/
theorem c8_draw_screen_pixel_witness :
    drawScreenPixels (fun k => k % 256) (0 * 4) = (fun k => k % 256) (0 * 3) ∧
      drawScreenPixels (fun k => k % 256) (0 * 4 + 1) = (fun k => k % 256) (0 * 3 + 1) ∧
      drawScreenPixels (fun k => k % 256) (0 * 4 + 2) = (fun k => k % 256) (0 * 3 + 2) ∧
      drawScreenPixels (fun k => k % 256) (0 * 4 + 3) = 255 :=
  c8_draw_screen_pixel (fun k => k % 256) 0 (by decide)

/-- The bit-building chain realises the fixed bit layout over all key
states. -/
theorem inputByte_testBit (a b sel start up down left right : Bool) (j : Fin 8) :
    (inputByte a b sel start up down left right).testBit j =
      [a, b, sel, start, up, down, left, right].get j := by
  revert a b sel start up down left right j
  decide

/-- C9: the controller byte has the fixed layout bit 0 = A (KeyX),
bit 1 = B (KeyZ), bit 2 = Select (KeyA), bit 3 = Start (KeyS), bit 4 = Up,
bit 5 = Down, bit 6 = Left, bit 7 = Right; holding only Up and A samples
exactly `0b0001_0001` = 17. -/
theorem c9_controller_layout :
    (∀ (keyDown : String → Bool) (j : Fin 8),
        (getControllerInput keyDown).testBit j = keyDown (buttonKey j)) ∧
      getControllerInput (fun k => k == "ArrowUp" || k == "KeyX") = 17 := by
  constructor
  · intro keyDown j
    simp only [getControllerInput]
    rw [inputByte_testBit]
    fin_cases j <;> rfl
  · decide
